import Mathlib

/-!
Verification of the core of the "literal" clock program (src/main.rs): a
time index over quote records with a minute-stepping circular fallback
search, and two highlight-alignment algorithms over quotation text.
Strings are modelled as lists of characters; byte lengths of the source
(str::len) are modelled by summing UTF-8 sizes of the characters.
-/

namespace Literal

/-- A corpus record, from struct Quote in src/main.rs. -/
structure Quote where
  time : List Char
  context : List Char
  quote : List Char
  source : List Char
  author : List Char
deriving DecidableEq

/-- Search direction, from enum Direction in src/main.rs. -/
inductive Direction where
  | Forward : Direction
  | Backward : Direction
deriving DecidableEq

/-- Number of bytes in the UTF-8 encoding of a character; the source's
str::len counts these bytes. -/
def utf8Size (c : Char) : Nat :=
  if c.toNat < 128 then 1
  else if c.toNat < 2048 then 2
  else if c.toNat < 65536 then 3
  else 4

/-- Byte length of a string modelled as a character list (str::len). -/
def utf8Len (s : List Char) : Nat := s.foldl (fun n c => n + utf8Size c) 0

/-- ASCII lowercasing of one character, as char::to_ascii_lowercase. -/
def asciiLower (c : Char) : Char :=
  if 65 ≤ c.toNat ∧ c.toNat ≤ 90 then Char.ofNat (c.toNat + 32) else c

/-- The context phrase as prepared at the top of Quote::format: the
typographic apostrophe (U+2019) replaced by the ASCII apostrophe (code 39),
then ASCII-lowercased. -/
def renderCtx (context : List Char) : List Char :=
  (context.map (fun c => if c = '’' then Char.ofNat 39 else c)).map asciiLower

/-- The highlight loop of Quote::format, one step per enumerated character
of the reflowed rendering. State: the head flag (a newline was crossed and
no reset has happened since) and the list hs of matched indices. The match
test compares the ASCII-lowercased character with the phrase character at
offset hs.length; on a full match (hs.length reaching the byte length of
the phrase, ctx.len() in the source) the loop breaks; a mismatching space
is skipped while the head flag is set; any other mismatch clears hs and
the head flag. -/
def scanHighlights (ctx : List Char) : List (Nat × Char) → Bool → List Nat → List Nat
  | [], _, hs => hs
  | (i, ch) :: rest, head, hs =>
    if ch = '\n' then scanHighlights ctx rest true hs
    else if some (asciiLower ch) = ctx.get? hs.length then
      (if hs.length + 1 = utf8Len ctx then hs ++ [i]
       else scanHighlights ctx rest head (hs ++ [i]))
    else if ch = ' ' ∧ head = true then scanHighlights ctx rest head hs
    else scanHighlights ctx rest false []

/-- Highlight indices computed by Quote::format for a given reflowed
rendering of the quotation (the rendering itself is produced by the
external textwrap collaborator, so it is a parameter here). -/
def formatHighlights (rendering context : List Char) : List Nat :=
  scanHighlights (renderCtx context) rendering.enum false []

/-- Rendering of the testable-property example: the phrase split across a
reflow-inserted line break followed by four indentation spaces. -/
def halfRendering : List Char := "half past\n    three".toList

/-- Phrase of the testable-property example. -/
def halfPhrase : List Char := "half past three".toList

/-- Rendering for the reset example: two decoy words before the phrase. -/
def theRendering : List Char := "the the cold morning".toList

/-- Phrase for the reset example. -/
def coldPhrase : List Char := "cold morning".toList

/-- Rendering for the space-skip example: a line boundary, two matching
characters, then a space well inside the line. -/
def skipRendering : List Char := "\nab dx".toList

/-- Phrase for the space-skip example. -/
def skipPhrase : List Char := "abd".toList

/-- C2 counterexample: on the rendering with the phrase split across a
reflow line break, the scan marks index 10, which is the first of the four
indentation spaces inserted after the newline (index 9); the claim says no
inserted indentation space is marked. The match test runs before the
head-flag skip, so the first indentation space is consumed as the phrase
character at offset 9 (the space between past and three). -/
theorem format_wrapped_half_past_counter :
    halfRendering.get? 9 = some '\n' ∧ halfRendering.get? 10 = some ' '
      ∧ 10 ∈ formatHighlights halfRendering halfPhrase := by decide

/-- C2 (amended): the scan marks every letter of the phrase, the space
inside half past at its original position, and exactly the first of the
four inserted indentation spaces, which stands in for the phrase space
between past and three; the newline and the remaining three indentation
spaces are not marked. -/
theorem format_wrapped_half_past_amended :
    formatHighlights halfRendering halfPhrase
      = [0, 1, 2, 3, 4, 5, 6, 7, 8, 10, 14, 15, 16, 17, 18] := by decide

/-- C8: on the single-line rendering with two decoy words, the scan never
anchors on the decoys (their characters mismatch the phrase head and reset
an empty state) and the final matched-index set is exactly the index range
of the later cold morning occurrence, characters 8 through 19. -/
theorem wrapped_reset_cold_morning :
    formatHighlights theRendering coldPhrase
      = [8, 9, 10, 11, 12, 13, 14, 15, 16, 17, 18, 19] := by decide

/-- C3 counterexample: in the rendering, index 3 is a space that does not
immediately follow a line boundary (index 2 is a letter), and it differs
from the expected phrase character d; the claim says such a space triggers
a reset, yet the completed match [1, 2, 4] survives it: the space is
skipped because the head flag, set by the newline at index 0, is cleared
only by a reset, not by intervening matches. -/
theorem wrapped_space_skip_counter :
    skipRendering.get? 2 = some 'b' ∧ skipRendering.get? 3 = some ' '
      ∧ formatHighlights skipRendering skipPhrase = [1, 2, 4] := by decide

/-- C3 (amended): a space that differs from the expected phrase character
is skipped, without consuming a phrase character and without resetting,
exactly when the head flag is set; when the head flag is clear such a
space triggers the reset; and a newline sets the head flag without
consuming a phrase character. The head flag is set by any newline since
the last reset, not only immediately before the space. -/
theorem wrapped_space_skip_amended (ctx : List Char) (i : Nat)
    (rest : List (Nat × Char)) (hs : List Nat)
    (hmiss : ctx.get? hs.length ≠ some ' ') :
    scanHighlights ctx ((i, ' ') :: rest) true hs = scanHighlights ctx rest true hs
      ∧ scanHighlights ctx ((i, ' ') :: rest) false hs = scanHighlights ctx rest false []
      ∧ scanHighlights ctx ((i, '\n') :: rest) false hs = scanHighlights ctx rest true hs := by
  have hsp : asciiLower ' ' = ' ' := by decide
  have hnl : ¬ (' ' = '\n') := by decide
  refine ⟨?_, ?_, ?_⟩
  · simp only [scanHighlights, hsp, if_neg hnl]
    rw [if_neg (fun hEq => hmiss hEq.symm)]
    simp
  · simp only [scanHighlights, hsp, if_neg hnl]
    rw [if_neg (fun hEq => hmiss hEq.symm)]
    simp
  · simp [scanHighlights]

/-- Witness for the amended C3 statement at a concrete phrase and state. -/
theorem wrapped_space_skip_amended_witness :
    (skipPhrase.get? 0 ≠ some ' ')
      ∧ (scanHighlights skipPhrase [(0, ' ')] true [] = scanHighlights skipPhrase [] true []
        ∧ scanHighlights skipPhrase [(0, ' ')] false [] = scanHighlights skipPhrase [] false []
        ∧ scanHighlights skipPhrase [(0, '\n')] false [] = scanHighlights skipPhrase [] true []) :=
  ⟨by decide, wrapped_space_skip_amended skipPhrase 0 [] [] (by decide)⟩

/-- First-occurrence search of str::find, at the character level: the
least index at which the pattern occurs, none when it never occurs. -/
def strFind (pat : List Char) : List Char → Option Nat
  | [] => if pat = [] then some 0 else none
  | c :: rest =>
    if (c :: rest).take pat.length = pat then some 0
    else Option.map Nat.succ (strFind pat rest)

/-- Start of the highlight range in Quote::format_no_wrap, with the
lowercasing of str::to_lowercase approximated characterwise by ASCII
lowering. Two ASCII-lowered strings match only where the fully lowered
ones do, so a failed search of the source implies a failed search here;
on the all-ASCII inputs used below the two searches agree exactly. The
byte-level model further down refines this for the range claim. -/
def Quote.noWrapStart (q : Quote) : Option Nat :=
  strFind (q.context.map asciiLower) (q.quote.map asciiLower)

/-- Outcome of running a fallible routine: it can abort the process (a
panic), return an error value to the caller, or return normally. -/
inductive RunOutcome (ε α : Type) where
  | panicked : RunOutcome ε α
  | failed : ε → RunOutcome ε α
  | ok : α → RunOutcome ε α
deriving DecidableEq

/-- Highlight range computed by Quote::format_no_wrap, with the control
flow around the search made explicit: the source unwraps the Option
returned by find, so a failed search is a panic; the error type of the
enclosing function only ever carries stream-write errors, so no alignment
failure is returned as an error value. -/
def Quote.format_no_wrap (ε : Type) (q : Quote) : RunOutcome ε (Nat × Nat) :=
  match q.noWrapStart with
  | none => RunOutcome.panicked
  | some s => RunOutcome.ok (s, s + (q.context.map asciiLower).length)

/-- A successful search result is an occurrence of the pattern, and the
least such occurrence. -/
theorem strFind_eq_some {pat s : List Char} {i : Nat} (h : strFind pat s = some i) :
    (s.drop i).take pat.length = pat ∧ ∀ j, j < i → (s.drop j).take pat.length ≠ pat := by
  induction s generalizing i with
  | nil =>
    by_cases hp : pat = []
    · simp only [strFind, if_pos hp, Option.some.injEq] at h
      subst h
      simp [hp]
    · simp [strFind, hp] at h
  | cons c rest ih =>
    by_cases hc : (c :: rest).take pat.length = pat
    · rw [strFind, if_pos hc, Option.some.injEq] at h
      subst h
      exact ⟨hc, by omega⟩
    · rw [strFind, if_neg hc] at h
      cases hr : strFind pat rest with
      | none => rw [hr] at h; simp at h
      | some j =>
        rw [hr, Option.map_some', Option.some.injEq] at h
        subst h
        obtain ⟨ho, hmin⟩ := ih hr
        refine ⟨by simpa [List.drop_succ_cons] using ho, ?_⟩
        intro k hk
        cases k with
        | zero => simpa using hc
        | succ k =>
          simpa [List.drop_succ_cons] using hmin k (by omega)

/-- Whenever the pattern occurs somewhere, the search succeeds. -/
theorem strFind_isSome_of_occurs {pat s : List Char} (i : Nat)
    (h : (s.drop i).take pat.length = pat) : ∃ j, strFind pat s = some j := by
  induction s generalizing i with
  | nil =>
    have hp : pat = [] := by simpa using h.symm
    exact ⟨0, by simp [strFind, hp]⟩
  | cons c rest ih =>
    by_cases hc : (c :: rest).take pat.length = pat
    · exact ⟨0, by simp [strFind, hc]⟩
    · cases i with
      | zero => exact absurd (by simpa using h) hc
      | succ i =>
        obtain ⟨j, hj⟩ := ih i (by simpa [List.drop_succ_cons] using h)
        exact ⟨j + 1, by simp [strFind, hc, hj]⟩

/-- Quote for the exact-substring example of the spec. -/
def coldQuote : Quote :=
  ⟨"10:15".toList, "cold morning".toList, "It was a cold morning.".toList,
    "s".toList, "a".toList⟩

/-- Quote whose context phrase does not occur in its quotation. -/
def missingQuote : Quote :=
  ⟨"10:15".toList, "half past".toList, "It was a cold morning.".toList,
    "s".toList, "a".toList⟩

/-- C5 counterexample: at a quote whose phrase is absent, the run outcome
of format_no_wrap is the panic of Option::unwrap on None, not an error
value returned to the caller. -/
theorem format_no_wrap_missing_counter :
    missingQuote.format_no_wrap Unit = RunOutcome.panicked
      ∧ missingQuote.format_no_wrap Unit ≠ RunOutcome.failed () := by decide

/-- C5 (amended): whenever the case-insensitive search fails, the call
panics, aborting the process, instead of returning: the failure is loud
and never a silently unhighlighted quotation, but no AlignmentNotFound
error value is surfaced to the caller. -/
theorem format_no_wrap_panics (q : Quote) (h : q.noWrapStart = none) :
    q.format_no_wrap Unit = RunOutcome.panicked
      ∧ q.format_no_wrap Unit ≠ RunOutcome.failed () := by
  constructor <;> simp [Quote.format_no_wrap, h]

/-- Witness for the amended C5 statement at the missing-phrase quote. -/
theorem format_no_wrap_panics_witness :
    missingQuote.noWrapStart = none
      ∧ (missingQuote.format_no_wrap Unit = RunOutcome.panicked
        ∧ missingQuote.format_no_wrap Unit ≠ RunOutcome.failed ()) :=
  ⟨by decide, format_no_wrap_panics missingQuote (by decide)⟩

/-- ASCII digit test, the byte-range check of u8 parsing. -/
def isDig (c : Char) : Bool := decide (48 ≤ c.toNat) && decide (c.toNat ≤ 57)

/-- Numeric value of a digit string, most significant digit first. -/
def u8Val (t : List Char) : Nat := t.foldl (fun a c => a * 10 + (c.toNat - 48)) 0

/-- u8::from_str on a possibly plus-signed digit string: fails on an
empty string, on a non-digit, or on overflow past 255. -/
def parseU8 (s : List Char) : Option Nat :=
  let t := if s.head? = some '+' then s.tail else s
  if t.isEmpty then none
  else if t.all isDig then (if u8Val t ≤ 255 then some (u8Val t) else none)
  else none

/-- splitn(2, colon) of Database::new: the text before the first colon
paired with the text after it; none when there is no colon, in which case
the source unwraps a missing second piece. -/
def splitOnceColon : List Char → Option (List Char × List Char)
  | [] => none
  | c :: rest =>
    if c = ':' then some ([], rest)
    else Option.map (fun pr => (c :: pr.1, pr.2)) (splitOnceColon rest)

/-- Parse of a record's time field in Database::new: split at the first
colon and u8-parse both pieces; none models the panic of the unwraps on a
malformed literal. -/
def parseTime (s : List Char) : Option (Nat × Nat) :=
  match splitOnceColon s with
  | none => none
  | some (a, b) =>
    match parseU8 a, parseU8 b with
    | some hh, some mm => some (hh, mm)
    | _, _ => none

/-- The time index, from struct Database: the corpus the multimap was
built from. -/
structure Database where
  quotes : List Quote
deriving DecidableEq

/-- Database::new builds the index by parsing every record's time field;
none models the panic on a record whose time field fails to parse. -/
def Database.new (quotes : List Quote) : Option Database :=
  if quotes.all (fun q => (parseTime q.time).isSome) then some ⟨quotes⟩ else none

/-- The records stored under one key of the multimap: exactly the records
whose parsed time equals the key, in corpus order, since collect inserts
pairs in iteration order. -/
def Database.entriesAt (db : Database) (t : Nat × Nat) : List Quote :=
  db.quotes.filter (fun q => decide (parseTime q.time = some t))

/-- Database::at_time: none when the key is absent from the multimap,
that is, when no record has the queried timestamp; otherwise one record
chosen from the key's collection, the random draw of choose modelled by
the pick argument taken modulo the collection size. -/
def Database.at_time (db : Database) (hh mm pick : Nat) : Option Quote :=
  (db.entriesAt (hh, mm)).get? (pick % (db.entriesAt (hh, mm)).length)

/-- Membership in one key's collection of the index. -/
theorem mem_entriesAt {db : Database} {q : Quote} {t : Nat × Nat} :
    q ∈ db.entriesAt t ↔ q ∈ db.quotes ∧ parseTime q.time = some t := by
  simp [Database.entriesAt, List.mem_filter]

/-- The lookup misses exactly when the key's collection is empty. -/
theorem at_time_none_iff {db : Database} {hh mm pick : Nat} :
    db.at_time hh mm pick = none ↔ db.entriesAt (hh, mm) = [] := by
  unfold Database.at_time
  cases h : db.entriesAt (hh, mm) with
  | nil => simp
  | cons c cs =>
    have hlt : pick % (c :: cs).length < (c :: cs).length :=
      Nat.mod_lt _ (by simp)
    constructor
    · intro hnone
      exact absurd (List.get?_eq_none.mp hnone) (by omega)
    · intro hEq
      exact absurd hEq (List.cons_ne_nil c cs)

/-- A returned record belongs to the key's collection. -/
theorem at_time_mem {db : Database} {hh mm pick : Nat} {q : Quote}
    (h : db.at_time hh mm pick = some q) : q ∈ db.entriesAt (hh, mm) := by
  unfold Database.at_time at h
  exact List.get?_mem h

/-- A nonempty key collection makes the lookup return one of its
members. -/
theorem at_time_isSome {db : Database} {hh mm pick : Nat}
    (h : db.entriesAt (hh, mm) ≠ []) :
    ∃ q, db.at_time hh mm pick = some q ∧ q ∈ db.entriesAt (hh, mm) := by
  cases hq : db.at_time hh mm pick with
  | none => exact absurd (at_time_none_iff.mp hq) h
  | some q => exact ⟨q, rfl, at_time_mem hq⟩

/-- C6: at_time returns none exactly when no record of the corpus has the
queried timestamp; any record it returns belongs to the corpus and has a
time field parsing to exactly the queried timestamp. -/
theorem at_time_exact (db : Database) (hh mm pick : Nat)
    (_hh23 : hh ≤ 23) (_mm59 : mm ≤ 59) :
    (db.at_time hh mm pick = none
        ↔ ∀ q ∈ db.quotes, parseTime q.time ≠ some (hh, mm))
      ∧ ∀ q, db.at_time hh mm pick = some q →
          q ∈ db.quotes ∧ parseTime q.time = some (hh, mm) := by
  constructor
  · rw [at_time_none_iff]
    simp [Database.entriesAt, List.filter_eq_nil_iff]
  · intro q hq
    exact mem_entriesAt.mp (at_time_mem hq)

/-- Index over the one-record corpus at the example timestamp. -/
def db2 : Database := ⟨[coldQuote]⟩

/-- Witness for C6 on the one-record corpus, queried at 10:15. -/
theorem at_time_exact_witness :
    10 ≤ 23 ∧ 15 ≤ 59
      ∧ ((db2.at_time 10 15 0 = none
          ↔ ∀ q ∈ db2.quotes, parseTime q.time ≠ some (10, 15))
        ∧ ∀ q, db2.at_time 10 15 0 = some q →
            q ∈ db2.quotes ∧ parseTime q.time = some (10, 15)) :=
  ⟨by decide, by decide, at_time_exact db2 10 15 0 (by decide) (by decide)⟩

/-- Digit value of a character. -/
def digitVal (c : Char) : Nat := c.toNat - 48

/-- Well-formed HH:MM literal of the data model: two digits, a colon, two
digits, with the hour at most 23 and the minute at most 59. -/
def validTimeLitB (s : List Char) : Bool :=
  match s with
  | [a, b, c, d, e] =>
    isDig a && isDig b && (c == ':') && isDig d && isDig e
      && decide (10 * digitVal a + digitVal b ≤ 23)
      && decide (10 * digitVal d + digitVal e ≤ 59)
  | _ => false

/-- Propositional form of the well-formed time literal check. -/
def validTimeLit (s : List Char) : Prop := validTimeLitB s = true

instance (s : List Char) : Decidable (validTimeLit s) := by
  unfold validTimeLit
  infer_instance

/-- Bounds carried by the digit test. -/
theorem isDig_bounds {c : Char} (h : isDig c = true) :
    48 ≤ c.toNat ∧ c.toNat ≤ 57 := by
  simpa [isDig] using h

/-- A digit is not the colon character. -/
theorem isDig_ne_colon {c : Char} (h : isDig c = true) : ¬ (c = ':') := by
  intro hEq
  subst hEq
  exact absurd h (by decide)

/-- A digit is not the plus sign. -/
theorem isDig_ne_plus {c : Char} (h : isDig c = true) : ¬ (c = '+') := by
  intro hEq
  subst hEq
  exact absurd h (by decide)

/-- Parsing a two-digit string yields its value. -/
theorem parseU8_two_digits {a b : Char} (ha : isDig a = true) (hb : isDig b = true) :
    parseU8 [a, b] = some (10 * digitVal a + digitVal b) := by
  obtain ⟨ha1, ha2⟩ := isDig_bounds ha
  obtain ⟨hb1, hb2⟩ := isDig_bounds hb
  have hhd : ¬ (([a, b] : List Char).head? = some '+') := by
    simp only [List.head?, Option.some.injEq]
    exact isDig_ne_plus ha
  have hv : u8Val [a, b] = 10 * digitVal a + digitVal b := by
    simp only [u8Val, List.foldl, digitVal]
    omega
  unfold parseU8
  rw [if_neg hhd]
  simp only [List.isEmpty, List.all_cons, List.all_nil, ha, hb,
    Bool.and_true, Bool.true_and, if_neg Bool.false_ne_true, if_true]
  rw [if_pos (by rw [hv]; unfold digitVal; omega), hv]

/-- A well-formed time literal parses to its in-range hour and minute. -/
theorem validTimeLit_parseTime {s : List Char} (h : validTimeLit s) :
    ∃ hh mm, parseTime s = some (hh, mm) ∧ hh ≤ 23 ∧ mm ≤ 59 := by
  unfold validTimeLit validTimeLitB at h
  rcases s with _ | ⟨a, _ | ⟨b, _ | ⟨c, _ | ⟨d, _ | ⟨e, _ | ⟨f, t⟩⟩⟩⟩⟩⟩ <;> simp at h
  obtain ⟨⟨⟨⟨⟨⟨ha, hb⟩, hc⟩, hd⟩, he⟩, h23⟩, h59⟩ := h
  subst hc
  have hsplit : splitOnceColon [a, b, ':', d, e] = some ([a, b], [d, e]) := by
    simp [splitOnceColon, isDig_ne_colon ha, isDig_ne_colon hb]
  refine ⟨10 * digitVal a + digitVal b, 10 * digitVal d + digitVal e, ?_, h23, h59⟩
  unfold parseTime
  rw [hsplit]
  simp [parseU8_two_digits ha hb, parseU8_two_digits hd he]

/-- C9: on a corpus whose time fields are all well-formed HH:MM literals,
Database::new cannot fail, and the index holds every record under exactly
the key parsed from the record's own time field and under no other key. -/
theorem database_new_index_invariant (quotes : List Quote)
    (hwf : ∀ q ∈ quotes, validTimeLit q.time) :
    ∃ db, Database.new quotes = some db ∧ db.quotes = quotes
      ∧ ∀ q ∈ quotes, ∃ hh mm, parseTime q.time = some (hh, mm)
          ∧ hh ≤ 23 ∧ mm ≤ 59
          ∧ ∀ t, (q ∈ db.entriesAt t ↔ t = (hh, mm)) := by
  have hall : quotes.all (fun q => (parseTime q.time).isSome) = true := by
    rw [List.all_eq_true]
    intro q hq
    obtain ⟨hh, mm, hp, -, -⟩ := validTimeLit_parseTime (hwf q hq)
    simp [hp]
  refine ⟨⟨quotes⟩, by simp [Database.new, hall], rfl, ?_⟩
  intro q hq
  obtain ⟨hh, mm, hp, h23, h59⟩ := validTimeLit_parseTime (hwf q hq)
  refine ⟨hh, mm, hp, h23, h59, fun t => ?_⟩
  rw [mem_entriesAt]
  constructor
  · rintro ⟨-, hpt⟩
    rw [hp, Option.some.injEq] at hpt
    exact hpt.symm
  · rintro rfl
    exact ⟨hq, hp⟩

/-- Witness for C9 on the one-record corpus. -/
theorem database_new_index_invariant_witness :
    (∀ q ∈ [coldQuote], validTimeLit q.time)
      ∧ (∃ db, Database.new [coldQuote] = some db ∧ db.quotes = [coldQuote]
        ∧ ∀ q ∈ [coldQuote], ∃ hh mm, parseTime q.time = some (hh, mm)
            ∧ hh ≤ 23 ∧ mm ≤ 59
            ∧ ∀ t, (q ∈ db.entriesAt t ↔ t = (hh, mm))) :=
  ⟨by decide, database_new_index_invariant [coldQuote] (by decide)⟩

/-- Database::next_time: one minute step with wraparound at the day
boundaries, selected by the direction. -/
def next_time (hh mm : Nat) : Direction → Nat × Nat
  | Direction.Backward =>
    if hh = 0 ∧ mm = 0 then (23, 59)
    else if mm = 0 then (hh - 1, 59)
    else (hh, mm - 1)
  | Direction.Forward =>
    if hh = 23 ∧ mm = 59 then (0, 0)
    else if mm = 59 then (hh + 1, 0)
    else (hh, mm + 1)

/-- A valid 24-hour clock time. -/
def validTime (t : Nat × Nat) : Prop := t.1 ≤ 23 ∧ t.2 ≤ 59

instance (t : Nat × Nat) : Decidable (validTime t) := by
  unfold validTime
  infer_instance

/-- C10: one-minute stepping maps every valid clock time to a valid clock
time, and the Forward and Backward variants are mutually inverse on valid
clock times. -/
theorem next_time_roundtrip (hh mm : Nat) (h1 : hh ≤ 23) (h2 : mm ≤ 59) :
    validTime (next_time hh mm Direction.Forward)
      ∧ validTime (next_time hh mm Direction.Backward)
      ∧ next_time (next_time hh mm Direction.Forward).1
          (next_time hh mm Direction.Forward).2 Direction.Backward = (hh, mm)
      ∧ next_time (next_time hh mm Direction.Backward).1
          (next_time hh mm Direction.Backward).2 Direction.Forward = (hh, mm) := by
  simp only [next_time, validTime]
  split_ifs <;> simp_all [Prod.ext_iff] <;> omega

/-- Witness for C10 at midnight. -/
theorem next_time_roundtrip_witness :
    0 ≤ 23 ∧ 0 ≤ 59
      ∧ (validTime (next_time 0 0 Direction.Forward)
        ∧ validTime (next_time 0 0 Direction.Backward)
        ∧ next_time (next_time 0 0 Direction.Forward).1
            (next_time 0 0 Direction.Forward).2 Direction.Backward = (0, 0)
        ∧ next_time (next_time 0 0 Direction.Backward).1
            (next_time 0 0 Direction.Backward).2 Direction.Forward = (0, 0)) :=
  ⟨by decide, by decide, next_time_roundtrip 0 0 (by decide) (by decide)⟩

/-- Encoding of a clock time as a minute count within the day. -/
def encodeTime (t : Nat × Nat) : Nat := 60 * t.1 + t.2

/-- Net minute shift of one step, modulo the 1440 minutes of a day. -/
def stepDelta : Direction → Nat
  | Direction.Forward => 1
  | Direction.Backward => 1439

/-- Stepping preserves validity of the clock time. -/
theorem next_time_valid {hh mm : Nat} (h : validTime (hh, mm)) (dir : Direction) :
    validTime (next_time hh mm dir) := by
  obtain ⟨h1, h2⟩ : hh ≤ 23 ∧ mm ≤ 59 := h
  cases dir <;> simp only [next_time, validTime] <;> split_ifs <;>
    simp_all <;> omega

/-- One step shifts the encoding by the direction's delta, modulo a
day. -/
theorem next_time_encode {hh mm : Nat} (h : validTime (hh, mm)) (dir : Direction) :
    encodeTime (next_time hh mm dir) = (encodeTime (hh, mm) + stepDelta dir) % 1440 := by
  obtain ⟨h1, h2⟩ : hh ≤ 23 ∧ mm ≤ 59 := h
  cases dir <;> simp only [next_time, stepDelta, encodeTime] <;> split_ifs <;>
    simp_all <;> omega

/-- The probe sequence of around_time: iterated one-minute stepping from
the query position. -/
def orbitTime (dir : Direction) (p : Nat × Nat) : Nat → Nat × Nat
  | 0 => p
  | n + 1 =>
    let q := orbitTime dir p n
    next_time q.1 q.2 dir

/-- Every probe position is a valid clock time when the query is. -/
theorem orbitTime_valid {p : Nat × Nat} (h : validTime p) (dir : Direction) :
    ∀ n, validTime (orbitTime dir p n) := by
  intro n
  induction n with
  | zero => exact h
  | succ n ih => exact next_time_valid ih dir

/-- Encoding of the probe at step n. -/
theorem orbitTime_encode {p : Nat × Nat} (h : validTime p) (dir : Direction) :
    ∀ n, encodeTime (orbitTime dir p n) = (encodeTime p + n * stepDelta dir) % 1440 := by
  intro n
  induction n with
  | zero =>
    have hlt : encodeTime p < 1440 := by
      obtain ⟨h1, h2⟩ : p.1 ≤ 23 ∧ p.2 ≤ 59 := h
      simp only [encodeTime]
      omega
    simp [orbitTime, Nat.mod_eq_of_lt hlt]
  | succ n ih =>
    have hv := orbitTime_valid h dir n
    calc encodeTime (orbitTime dir p (n + 1))
        = (encodeTime (orbitTime dir p n) + stepDelta dir) % 1440 :=
          next_time_encode hv dir
      _ = ((encodeTime p + n * stepDelta dir) % 1440 + stepDelta dir) % 1440 := by
          rw [ih]
      _ = (encodeTime p + (n + 1) * stepDelta dir) % 1440 := by
          rw [Nat.mod_add_mod]
          congr 1
          ring

/-- The encoding is injective on valid clock times. -/
theorem encodeTime_inj {p q : Nat × Nat} (hp : validTime p) (hq : validTime q)
    (h : encodeTime p = encodeTime q) : p = q := by
  obtain ⟨a, b⟩ := p
  obtain ⟨c, d⟩ := q
  obtain ⟨h1, h2⟩ : a ≤ 23 ∧ b ≤ 59 := hp
  obtain ⟨h3, h4⟩ : c ≤ 23 ∧ d ≤ 59 := hq
  simp only [encodeTime] at h
  simp only [Prod.mk.injEq]
  constructor <;> omega

/-- The probe sequence reaches every valid clock time within one day of
steps: the step function cycles through all 1440 clock positions. -/
theorem orbitTime_reach {p t : Nat × Nat} (hp : validTime p) (ht : validTime t)
    (dir : Direction) : ∃ n, n < 1440 ∧ orbitTime dir p n = t := by
  have hep : encodeTime p < 1440 := by
    obtain ⟨h1, h2⟩ : p.1 ≤ 23 ∧ p.2 ≤ 59 := hp
    simp only [encodeTime]
    omega
  have het : encodeTime t < 1440 := by
    obtain ⟨h1, h2⟩ : t.1 ≤ 23 ∧ t.2 ≤ 59 := ht
    simp only [encodeTime]
    omega
  cases dir with
  | Forward =>
    refine ⟨(encodeTime t + 1440 - encodeTime p) % 1440, Nat.mod_lt _ (by omega), ?_⟩
    apply encodeTime_inj (orbitTime_valid hp _ _) ht
    rw [orbitTime_encode hp]
    simp only [stepDelta]
    omega
  | Backward =>
    refine ⟨(encodeTime p + 1440 - encodeTime t) % 1440, Nat.mod_lt _ (by omega), ?_⟩
    apply encodeTime_inj (orbitTime_valid hp _ _) ht
    rw [orbitTime_encode hp]
    simp only [stepDelta]
    omega

/-- The loop of Database::around_time with explicit fuel: each iteration
looks the current position up and on a miss steps one minute in the
requested direction; the fresh randomness drawn by each at_time call is
modelled by a stream of picks. The source loop is unbounded; none models
exhausting the fuel before any hit. -/
def around_timeFuel (db : Database) (dir : Direction) :
    Nat → (Nat → Nat) → Nat × Nat → Option Quote
  | 0, _, _ => none
  | fuel + 1, picks, p =>
    match db.at_time p.1 p.2 (picks 0) with
    | some q => some q
    | none => around_timeFuel db dir fuel (fun j => picks (j + 1)) (next_time p.1 p.2 dir)

/-- Database::around_time, the unbounded search loop; 1440 fuel always
suffices on a corpus with a record at some valid time, as proved below,
so the fuel bound never determines the returned record there. -/
def Database.around_time (db : Database) (hh mm : Nat) (dir : Direction)
    (picks : Nat → Nat) : Option Quote :=
  around_timeFuel db dir 1440 picks (hh, mm)

/-- Unfolding of one loop iteration that hits. -/
theorem around_timeFuel_succ_hit {db : Database} {dir : Direction}
    {fuel : Nat} {picks : Nat → Nat} {p : Nat × Nat} {q : Quote}
    (h : db.at_time p.1 p.2 (picks 0) = some q) :
    around_timeFuel db dir (fuel + 1) picks p = some q := by
  unfold around_timeFuel
  rw [h]

/-- Unfolding of one loop iteration that misses and steps. -/
theorem around_timeFuel_succ_miss {db : Database} {dir : Direction}
    {fuel : Nat} {picks : Nat → Nat} {p : Nat × Nat}
    (h : db.at_time p.1 p.2 (picks 0) = none) :
    around_timeFuel db dir (fuel + 1) picks p
      = around_timeFuel db dir fuel (fun j => picks (j + 1)) (next_time p.1 p.2 dir) := by
  conv_lhs => unfold around_timeFuel
  rw [h]

/-- Shifting the probe sequence by one step. -/
theorem orbitTime_shift (dir : Direction) (p : Nat × Nat) :
    ∀ n, orbitTime dir (next_time p.1 p.2 dir) n = orbitTime dir p (n + 1) := by
  intro n
  induction n with
  | zero => rfl
  | succ n ih => simp only [orbitTime, ih]

/-- If the probe at step n is the first populated one and there is more
fuel than n, the loop returns a member of that probe's collection. -/
theorem around_fuel_hits (db : Database) (dir : Direction) :
    ∀ (n : Nat) (p : Nat × Nat) (picks : Nat → Nat) (fuel : Nat), n < fuel →
      (∀ j, j < n → db.entriesAt (orbitTime dir p j) = []) →
      db.entriesAt (orbitTime dir p n) ≠ [] →
      ∃ q, around_timeFuel db dir fuel picks p = some q
        ∧ q ∈ db.entriesAt (orbitTime dir p n) := by
  intro n
  induction n with
  | zero =>
    intro p picks fuel hfuel hprev hhit
    cases fuel with
    | zero => omega
    | succ f =>
      obtain ⟨q, hq, hmem⟩ := @at_time_isSome db p.1 p.2 (picks 0) hhit
      exact ⟨q, around_timeFuel_succ_hit hq, hmem⟩
  | succ n ih =>
    intro p picks fuel hfuel hprev hhit
    cases fuel with
    | zero => omega
    | succ f =>
      have h0 : db.entriesAt (p.1, p.2) = [] := hprev 0 (by omega)
      have hnone : db.at_time p.1 p.2 (picks 0) = none := at_time_none_iff.mpr h0
      rw [around_timeFuel_succ_miss hnone, ← orbitTime_shift dir p n]
      exact ih (next_time p.1 p.2 dir) (fun j => picks (j + 1)) f (by omega)
        (fun j hj => by rw [orbitTime_shift]; exact hprev (j + 1) (by omega))
        (by rw [orbitTime_shift]; exact hhit)

/-- A successful run is stable under extra fuel: the source loop, which
has no bound at all, returns the same record. -/
theorem around_fuel_mono (db : Database) (dir : Direction) :
    ∀ (fuel : Nat) (picks : Nat → Nat) (p : Nat × Nat) (q : Quote),
      around_timeFuel db dir fuel picks p = some q →
      ∀ g, fuel ≤ g → around_timeFuel db dir g picks p = some q := by
  intro fuel
  induction fuel with
  | zero =>
    intro picks p q h
    exact absurd h (by simp [around_timeFuel])
  | succ f ih =>
    intro picks p q h g hg
    cases g with
    | zero => omega
    | succ g =>
      cases hcase : db.at_time p.1 p.2 (picks 0) with
      | some r =>
        rw [around_timeFuel_succ_hit hcase] at h
        rw [around_timeFuel_succ_hit hcase]
        exact h
      | none =>
        rw [around_timeFuel_succ_miss hcase] at h
        rw [around_timeFuel_succ_miss hcase]
        exact ih _ _ _ h g (by omega)

/-- A nonempty corpus of well-formed records populates some valid clock
time of the index. -/
theorem exists_populated (db : Database)
    (hwf : ∀ q ∈ db.quotes, validTimeLit q.time) (hne : db.quotes ≠ []) :
    ∃ t, validTime t ∧ db.entriesAt t ≠ [] := by
  obtain ⟨q, hq⟩ := List.exists_mem_of_ne_nil db.quotes hne
  obtain ⟨h1, m1, hp, h23, h59⟩ := validTimeLit_parseTime (hwf q hq)
  refine ⟨(h1, m1), ⟨h23, h59⟩, ?_⟩
  have hmem : q ∈ db.entriesAt (h1, m1) := mem_entriesAt.mpr ⟨hq, hp⟩
  exact List.ne_nil_of_mem hmem

/-- Core of the termination and correctness argument: with 1440 fuel the
loop returns a member of the first populated probe position. -/
theorem around_main (db : Database) (dir : Direction) (picks : Nat → Nat)
    (p : Nat × Nat) (hp : validTime p)
    (hpop : ∃ t, validTime t ∧ db.entriesAt t ≠ []) :
    ∃ n q, n < 1440 ∧ around_timeFuel db dir 1440 picks p = some q
      ∧ q ∈ db.entriesAt (orbitTime dir p n)
      ∧ ∀ j, j < n → db.entriesAt (orbitTime dir p j) = [] := by
  obtain ⟨t, ht, hpt⟩ := hpop
  obtain ⟨m, hm, hmt⟩ := orbitTime_reach hp ht dir
  have hex : ∃ n, db.entriesAt (orbitTime dir p n) ≠ [] :=
    ⟨m, by rw [hmt]; exact hpt⟩
  have hmin : ∀ j, j < Nat.find hex → db.entriesAt (orbitTime dir p j) = [] :=
    fun j hj => not_not.mp (Nat.find_min hex hj)
  have hlt : Nat.find hex < 1440 :=
    lt_of_le_of_lt (Nat.find_min' hex (by rw [hmt]; exact hpt)) hm
  obtain ⟨q, hq, hqm⟩ :=
    around_fuel_hits db dir (Nat.find hex) p picks 1440 hlt hmin (Nat.find_spec hex)
  exact ⟨Nat.find hex, q, hlt, hq, hqm, hmin⟩

/-- C1: on a corpus of well-formed records holding at least one record,
around_time returns a record whose parsed time is the first position of
the probe sequence, the query followed by repeated one-minute steps in
the requested direction with wraparound, whose key collection is
nonempty; and stepping Backward from midnight probes 23:59 next. -/
theorem around_time_first_populated (db : Database) (hh mm : Nat)
    (dir : Direction) (picks : Nat → Nat) (hh23 : hh ≤ 23) (mm59 : mm ≤ 59)
    (hwf : ∀ q ∈ db.quotes, validTimeLit q.time) (hne : db.quotes ≠ []) :
    (∃ n q, db.around_time hh mm dir picks = some q
      ∧ parseTime q.time = some (orbitTime dir (hh, mm) n)
      ∧ db.entriesAt (orbitTime dir (hh, mm) n) ≠ []
      ∧ ∀ j, j < n → db.entriesAt (orbitTime dir (hh, mm) j) = [])
    ∧ next_time 0 0 Direction.Backward = (23, 59) := by
  obtain ⟨n, q, hn, hq, hmem, hmin⟩ :=
    around_main db dir picks (hh, mm) ⟨hh23, mm59⟩ (exists_populated db hwf hne)
  exact ⟨⟨n, q, hq, (mem_entriesAt.mp hmem).2, List.ne_nil_of_mem hmem, hmin⟩,
    by decide⟩

/-- C4: on a corpus of well-formed records holding at least one record,
the search loop returns a record with 1440 fuel, and every larger fuel
returns the same record: the unbounded loop of the source terminates
within at most 1440 steps because the step function cycles through all
clock positions. -/
theorem around_time_terminates (db : Database) (hh mm : Nat)
    (dir : Direction) (picks : Nat → Nat) (hh23 : hh ≤ 23) (mm59 : mm ≤ 59)
    (hwf : ∀ q ∈ db.quotes, validTimeLit q.time) (hne : db.quotes ≠ []) :
    ∃ q, db.around_time hh mm dir picks = some q
      ∧ ∀ g, 1440 ≤ g → around_timeFuel db dir g picks (hh, mm) = some q := by
  obtain ⟨n, q, hn, hq, hmem, hmin⟩ :=
    around_main db dir picks (hh, mm) ⟨hh23, mm59⟩ (exists_populated db hwf hne)
  exact ⟨q, hq, fun g hg => around_fuel_mono db dir 1440 picks (hh, mm) q hq g hg⟩

/-- One-record corpus at the last minute of the day. -/
def lateQuote : Quote :=
  ⟨"23:59".toList, "c".toList, "q".toList, "s".toList, "a".toList⟩

/-- Index over the late one-record corpus. -/
def db3 : Database := ⟨[lateQuote]⟩

/-- Witness for C1: querying midnight Backward on the late corpus. -/
theorem around_time_first_populated_witness :
    0 ≤ 23 ∧ 0 ≤ 59 ∧ (∀ q ∈ db3.quotes, validTimeLit q.time) ∧ db3.quotes ≠ []
      ∧ ((∃ n q, db3.around_time 0 0 Direction.Backward (fun _ => 0) = some q
          ∧ parseTime q.time = some (orbitTime Direction.Backward (0, 0) n)
          ∧ db3.entriesAt (orbitTime Direction.Backward (0, 0) n) ≠ []
          ∧ ∀ j, j < n → db3.entriesAt (orbitTime Direction.Backward (0, 0) j) = [])
        ∧ next_time 0 0 Direction.Backward = (23, 59)) :=
  ⟨by decide, by decide, by decide, by decide,
    around_time_first_populated db3 0 0 Direction.Backward (fun _ => 0)
      (by decide) (by decide) (by decide) (by decide)⟩

/-- Witness for C4: the same query terminates on the late corpus. -/
theorem around_time_terminates_witness :
    0 ≤ 23 ∧ 0 ≤ 59 ∧ (∀ q ∈ db3.quotes, validTimeLit q.time) ∧ db3.quotes ≠ []
      ∧ (∃ q, db3.around_time 0 0 Direction.Backward (fun _ => 0) = some q
        ∧ ∀ g, 1440 ≤ g →
            around_timeFuel db3 Direction.Backward g (fun _ => 0) (0, 0) = some q) :=
  ⟨by decide, by decide, by decide, by decide,
    around_time_terminates db3 0 0 Direction.Backward (fun _ => 0)
      (by decide) (by decide) (by decide) (by decide)⟩

/-- UTF-8 encoding of one character, bytes as natural numbers, computed
from the code point; the source indexes and slices strings by these
bytes. -/
def utf8Bytes (c : Char) : List Nat :=
  if c.toNat < 128 then [c.toNat]
  else if c.toNat < 2048 then [192 + c.toNat / 64, 128 + c.toNat % 64]
  else if c.toNat < 65536 then
    [224 + c.toNat / 4096, 128 + c.toNat / 64 % 64, 128 + c.toNat % 64]
  else
    [240 + c.toNat / 262144, 128 + c.toNat / 4096 % 64,
      128 + c.toNat / 64 % 64, 128 + c.toNat % 64]

/-- UTF-8 byte encoding of a string given as its characters. -/
def utf8Str (s : List Char) : List Nat := (s.map utf8Bytes).flatten

/-- A UTF-8 continuation byte. -/
def isCont (b : Nat) : Prop := 128 ≤ b ∧ b < 192

instance (b : Nat) : Decidable (isCont b) := by
  unfold isCont
  infer_instance

/-- str::is_char_boundary at a byte index: the end of the string, or a
byte that is not a continuation byte; false past the end. -/
def isCharBoundary (bs : List Nat) (i : Nat) : Bool :=
  match bs.get? i with
  | none => i == bs.length
  | some b => decide (b < 128) || decide (192 ≤ b)

/-- Byte-range slicing of str: defined when the bounds are ordered and
both lie on character boundaries; none models the slicing panic. -/
def byteSlice (bs : List Nat) (a b : Nat) : Option (List Nat) :=
  if a ≤ b ∧ isCharBoundary bs a = true ∧ isCharBoundary bs b = true then
    some ((bs.drop a).take (b - a))
  else none

/-- First-occurrence search on byte strings; str::find reports the byte
offset of the first match. -/
def byteFind (pat : List Nat) : List Nat → Option Nat
  | [] => if pat = [] then some 0 else none
  | c :: rest =>
    if (c :: rest).take pat.length = pat then some 0
    else Option.map Nat.succ (byteFind pat rest)

/-- Quote::format_no_wrap at the byte level, parametrized by the
character lowercasing used by String::to_lowercase, under which one
character may lower to several: ctx is the byte string of the lowered
context, the search runs over the byte string of the lowered quotation,
and the three printed slices are cut from the byte string of the
ORIGINAL quotation at the offsets start and start plus ctx.len() found
in the lowered one; the unwrap of a failed search and any out-of-range
or non-boundary slice are panics. -/
def format_no_wrap_bytes (lower : Char → List Char) (ε : Type) (q : Quote) :
    RunOutcome ε (List Nat × List Nat × List Nat) :=
  match byteFind (utf8Str ((q.context.map lower).flatten))
      (utf8Str ((q.quote.map lower).flatten)) with
  | none => RunOutcome.panicked
  | some s =>
    match byteSlice (utf8Str q.quote) 0 s,
        byteSlice (utf8Str q.quote) s
          (s + (utf8Str ((q.context.map lower).flatten)).length),
        byteSlice (utf8Str q.quote)
          (s + (utf8Str ((q.context.map lower).flatten)).length)
          (utf8Str q.quote).length with
    | some p1, some p2, some p3 => RunOutcome.ok (p1, p2, p3)
    | _, _, _ => RunOutcome.panicked

/-- The character lowercasing of String::to_lowercase restricted to the
characters appearing in the concrete examples below, where it is exact:
ASCII uppercase letters lower by 32, the capital sharp s U+1E9E lowers
to the small sharp s U+00DF, and the remaining characters of those
examples are already lowercase and map to themselves. -/
def demoLower (c : Char) : List Char :=
  if 65 ≤ c.toNat ∧ c.toNat ≤ 90 then [Char.ofNat (c.toNat + 32)]
  else if c = 'ẞ' then ['ß']
  else [c]

/-- Quotation beginning with a character whose lowercase form is one
byte shorter, placed before the phrase. -/
def sharpQuote : Quote :=
  ⟨"10:15".toList, "cold morning".toList, "ẞ cold morning".toList,
    "s".toList, "a".toList⟩

/-- C7 counterexample: the phrase occurs case-insensitively in the
quotation, the search succeeding at byte offset 3 of the lowered
rendering, yet the returned middle slice of the original quotation is a
misaligned byte range, the text space-cold-mornin rather than the
phrase: lowercasing shrank the leading character from three bytes to
two, so offsets found in the lowered string do not address the
occurrence in the original one. -/
theorem format_no_wrap_byte_counter :
    byteFind (utf8Str ((sharpQuote.context.map demoLower).flatten))
        (utf8Str ((sharpQuote.quote.map demoLower).flatten)) = some 3
      ∧ format_no_wrap_bytes demoLower Unit sharpQuote
        = RunOutcome.ok (utf8Str "ẞ".toList, utf8Str " cold mornin".toList,
            utf8Str "g".toList)
      ∧ utf8Str " cold mornin".toList ≠ utf8Str "cold morning".toList := by decide

/-- The encoding of a character is nonempty. -/
theorem utf8Bytes_ne_nil (c : Char) : utf8Bytes c ≠ [] := by
  unfold utf8Bytes
  split_ifs <;> simp

/-- The first byte of an encoding is not a continuation byte. -/
theorem utf8Bytes_head_not_cont {c : Char} {b : Nat}
    (h : (utf8Bytes c).head? = some b) : ¬ isCont b := by
  unfold utf8Bytes at h
  unfold isCont
  split_ifs at h <;> simp at h <;> omega

/-- Every byte of an encoding after the first is a continuation byte. -/
theorem utf8Bytes_tail_cont {c : Char} {b : Nat}
    (h : b ∈ (utf8Bytes c).tail) : isCont b := by
  unfold utf8Bytes at h
  unfold isCont
  split_ifs at h <;> simp at h <;> omega

/-- The first byte of an encoding determines the encoding's length. -/
theorem utf8Bytes_head_length {c d : Char}
    (h : (utf8Bytes c).head? = (utf8Bytes d).head?) :
    (utf8Bytes c).length = (utf8Bytes d).length := by
  unfold utf8Bytes at h ⊢
  split_ifs at h ⊢ <;> simp_all <;> omega

/-- A successful byte search result is an occurrence of the pattern, and
the least such occurrence. -/
theorem byteFind_eq_some {pat s : List Nat} {i : Nat} (h : byteFind pat s = some i) :
    (s.drop i).take pat.length = pat ∧ ∀ j, j < i → (s.drop j).take pat.length ≠ pat := by
  induction s generalizing i with
  | nil =>
    by_cases hp : pat = []
    · simp only [byteFind, if_pos hp, Option.some.injEq] at h
      subst h
      simp [hp]
    · simp [byteFind, hp] at h
  | cons c rest ih =>
    by_cases hc : (c :: rest).take pat.length = pat
    · rw [byteFind, if_pos hc, Option.some.injEq] at h
      subst h
      exact ⟨hc, by omega⟩
    · rw [byteFind, if_neg hc] at h
      cases hr : byteFind pat rest with
      | none => rw [hr] at h; simp at h
      | some j =>
        rw [hr, Option.map_some', Option.some.injEq] at h
        subst h
        obtain ⟨ho, hmin⟩ := ih hr
        refine ⟨by simpa [List.drop_succ_cons] using ho, ?_⟩
        intro k hk
        cases k with
        | zero => simpa using hc
        | succ k =>
          simpa [List.drop_succ_cons] using hmin k (by omega)

/-- Whenever the byte pattern occurs somewhere, the search succeeds. -/
theorem byteFind_isSome_of_occurs {pat s : List Nat} (i : Nat)
    (h : (s.drop i).take pat.length = pat) : ∃ j, byteFind pat s = some j := by
  induction s generalizing i with
  | nil =>
    have hp : pat = [] := by simpa using h.symm
    exact ⟨0, by simp [byteFind, hp]⟩
  | cons c rest ih =>
    by_cases hc : (c :: rest).take pat.length = pat
    · exact ⟨0, by simp [byteFind, hc]⟩
    · cases i with
      | zero => exact absurd (by simpa using h) hc
      | succ i =>
        obtain ⟨j, hj⟩ := ih i (by simpa [List.drop_succ_cons] using h)
        exact ⟨j + 1, by simp [byteFind, hc, hj]⟩

/-- Head of an append with a nonempty left part. -/
theorem head?_append_left {α : Type} {l r : List α} (h : l ≠ []) :
    (l ++ r).head? = l.head? := by
  cases l with
  | nil => exact absurd rfl h
  | cons a t => rfl

/-- Encoding of the empty string. -/
theorem utf8Str_nil : utf8Str [] = [] := rfl

/-- Encoding of a cons. -/
theorem utf8Str_cons (c : Char) (s : List Char) :
    utf8Str (c :: s) = utf8Bytes c ++ utf8Str s := by
  simp [utf8Str]

/-- The encoding is append-homomorphic. -/
theorem utf8Str_append (s t : List Char) :
    utf8Str (s ++ t) = utf8Str s ++ utf8Str t := by
  simp [utf8Str]

/-- A nonempty string encodes to a nonempty byte string. -/
theorem utf8Str_ne_nil {s : List Char} (h : s ≠ []) : utf8Str s ≠ [] := by
  cases s with
  | nil => exact absurd rfl h
  | cons c t => simp [utf8Str_cons, utf8Bytes_ne_nil]

/-- The first byte of a nonempty string's encoding is not a continuation
byte. -/
theorem utf8Str_head_not_cont {s : List Char} {b : Nat}
    (hs : s ≠ []) (h : (utf8Str s).head? = some b) : ¬ isCont b := by
  cases s with
  | nil => exact absurd rfl hs
  | cons c t =>
    rw [utf8Str_cons, head?_append_left (utf8Bytes_ne_nil c)] at h
    exact utf8Bytes_head_not_cont h

/-- The first byte of a nonempty string's encoding exists and is a lead
byte. -/
theorem utf8Str_head_lead {s : List Char} (hs : s ≠ []) :
    ∃ b, (utf8Str s).head? = some b ∧ (b < 128 ∨ 192 ≤ b) := by
  cases s with
  | nil => exact absurd rfl hs
  | cons c t =>
    cases hcb : utf8Bytes c with
    | nil => exact absurd hcb (utf8Bytes_ne_nil c)
    | cons x xs =>
      refine ⟨x, by rw [utf8Str_cons, hcb]; rfl, ?_⟩
      have hx := @utf8Bytes_head_not_cont c x (by rw [hcb]; rfl)
      unfold isCont at hx
      omega

/-- UTF-8 self-synchronization: a split of an encoded string whose right
part does not begin with a continuation byte falls on a character
boundary. -/
theorem utf8Str_split_aligned :
    ∀ (chars : List Char) (A B : List Nat),
      utf8Str chars = A ++ B →
      (∀ b, B.head? = some b → ¬ isCont b) →
      ∃ c1 c2, chars = c1 ++ c2 ∧ utf8Str c1 = A ∧ utf8Str c2 = B := by
  intro chars
  induction chars with
  | nil =>
    intro A B h hB
    obtain ⟨hA, hB2⟩ := List.append_eq_nil.mp h.symm
    exact ⟨[], [], rfl, by rw [utf8Str_nil, hA], by rw [utf8Str_nil, hB2]⟩
  | cons c cs ih =>
    intro A B h hB
    rw [utf8Str_cons] at h
    rcases Nat.lt_or_ge A.length (utf8Bytes c).length with hlt | hge
    · cases hA : A with
      | nil =>
        subst hA
        exact ⟨[], c :: cs, rfl, rfl, by rw [utf8Str_cons]; simpa using h⟩
      | cons a as =>
        exfalso
        subst hA
        have hkey : B.head? = (utf8Bytes c).get? (a :: as).length := by
          have h1 : ((a :: as) ++ B).get? (a :: as).length = B.head? := by
            rw [List.get?_append_right (le_refl _), Nat.sub_self, List.get?_zero]
          have h2 : (utf8Bytes c ++ utf8Str cs).get? (a :: as).length
              = (utf8Bytes c).get? (a :: as).length := List.get?_append hlt
          rw [← h1, ← h, h2]
        obtain ⟨b, hb⟩ : ∃ b, (utf8Bytes c).get? (a :: as).length = some b := by
          cases hx : (utf8Bytes c).get? (a :: as).length with
          | none => exact absurd (List.get?_eq_none.mp hx) (by omega)
          | some b => exact ⟨b, rfl⟩
        have hmem : b ∈ (utf8Bytes c).tail := by
          cases hcb : utf8Bytes c with
          | nil => exact absurd hcb (utf8Bytes_ne_nil c)
          | cons x xs =>
            rw [hcb] at hb
            have hb2 : xs.get? as.length = some b := by
              simpa [List.length_cons] using hb
            simpa using List.get?_mem hb2
        exact absurd (utf8Bytes_tail_cont hmem) (hB b (by rw [hkey, hb]))
    · have hbytes : utf8Bytes c = A.take (utf8Bytes c).length := by
        have h2 := congrArg (List.take (utf8Bytes c).length) h
        rwa [List.take_left, List.take_append_of_le_length hge] at h2
      have hdrop : utf8Str cs = A.drop (utf8Bytes c).length ++ B := by
        have h2 := congrArg (List.drop (utf8Bytes c).length) h
        rwa [List.drop_left, List.drop_append_of_le_length hge] at h2
      obtain ⟨c1, c2, hc, h1, h2⟩ := ih (A.drop (utf8Bytes c).length) B hdrop hB
      refine ⟨c :: c1, c2, by simp [hc], ?_, h2⟩
      rw [utf8Str_cons, h1]
      nth_rewrite 1 [hbytes]
      exact List.take_append_drop _ A

/-- When an encoded string begins with the encoding of a pattern, the
character list splits so that a prefix encodes exactly those bytes. -/
theorem utf8Str_decode :
    ∀ (pat chars : List Char) (tailBytes : List Nat),
      utf8Str chars = utf8Str pat ++ tailBytes →
      ∃ p rest, chars = p ++ rest ∧ utf8Str p = utf8Str pat ∧ utf8Str rest = tailBytes := by
  intro pat
  induction pat with
  | nil =>
    intro chars tailBytes h
    exact ⟨[], chars, rfl, rfl, by simpa [utf8Str_nil] using h⟩
  | cons c pt ih =>
    intro chars tailBytes h
    cases chars with
    | nil =>
      rw [utf8Str_nil, utf8Str_cons, List.append_assoc] at h
      exact absurd (List.append_eq_nil.mp h.symm).1 (utf8Bytes_ne_nil c)
    | cons d ds =>
      rw [utf8Str_cons, utf8Str_cons, List.append_assoc] at h
      have hhead : (utf8Bytes d).head? = (utf8Bytes c).head? := by
        have h1 : (utf8Bytes d ++ utf8Str ds).head? = (utf8Bytes d).head? :=
          head?_append_left (utf8Bytes_ne_nil d)
        have h2 : (utf8Bytes c ++ (utf8Str pt ++ tailBytes)).head? = (utf8Bytes c).head? :=
          head?_append_left (utf8Bytes_ne_nil c)
        rw [← h1, h, h2]
      obtain ⟨hb, hrest⟩ := List.append_inj h (utf8Bytes_head_length hhead)
      obtain ⟨p, rest, hp1, hp2, hp3⟩ := ih ds tailBytes hrest
      exact ⟨d :: p, rest, by simp [hp1],
        by rw [utf8Str_cons, utf8Str_cons, hp2, hb], hp3⟩

/-- The encoded length is preserved by a characterwise map that
preserves each character's encoded length. -/
theorem utf8Str_length_congr {f : Char → Char} :
    ∀ {s : List Char}, (∀ c ∈ s, (utf8Bytes (f c)).length = (utf8Bytes c).length) →
      (utf8Str (s.map f)).length = (utf8Str s).length := by
  intro s
  induction s with
  | nil => intro hf; rfl
  | cons c t ih =>
    intro hf
    rw [List.map_cons, utf8Str_cons, utf8Str_cons, List.length_append,
      List.length_append, ih (fun d hd => hf d (List.mem_cons_of_mem c hd)),
      hf c (List.mem_cons_self c t)]

/-- Flattening a map to singleton lists is a map. -/
theorem flatten_map_singleton {f : Char → List Char} {g : Char → Char} :
    ∀ {s : List Char}, (∀ c ∈ s, f c = [g c]) → (s.map f).flatten = s.map g := by
  intro s
  induction s with
  | nil => intro hf; rfl
  | cons c t ih =>
    intro hf
    rw [List.map_cons, List.map_cons, List.flatten_cons,
      hf c (List.mem_cons_self c t), ih (fun d hd => hf d (List.mem_cons_of_mem c hd))]
    rfl

/-- The boundary between the encodings of two concatenated strings is a
character boundary. -/
theorem isCharBoundary_utf8Str (s1 s2 : List Char) :
    isCharBoundary (utf8Str (s1 ++ s2)) (utf8Str s1).length = true := by
  rw [utf8Str_append]
  unfold isCharBoundary
  cases s2 with
  | nil =>
    have hnone : (utf8Str s1 ++ utf8Str ([] : List Char)).get? (utf8Str s1).length
        = none := by
      rw [utf8Str_nil]
      exact List.get?_eq_none.mpr (by simp)
    rw [hnone]
    simp [utf8Str_nil]
  | cons c t =>
    obtain ⟨b, hb, hlead⟩ := utf8Str_head_lead (List.cons_ne_nil c t)
    have hsome : (utf8Str s1 ++ utf8Str (c :: t)).get? (utf8Str s1).length = some b := by
      rw [List.get?_append_right le_rfl, Nat.sub_self, List.get?_zero, hb]
    rw [hsome]
    rcases hlead with h | h <;> simp [h]

/-- Slicing succeeds on ordered boundary offsets. -/
theorem byteSlice_eq {bs : List Nat} {a b : Nat} (hab : a ≤ b)
    (ha : isCharBoundary bs a = true) (hb : isCharBoundary bs b = true) :
    byteSlice bs a b = some ((bs.drop a).take (b - a)) := by
  unfold byteSlice
  rw [if_pos ⟨hab, ha, hb⟩]

/-- An occurrence of an encoded pattern inside the encoding of a
characterwise-lowered string, when the lowering preserves each
character's encoded length, is aligned: its byte offset is the encoded
length of a character prefix of the original string, the matched byte
range of the original string is the encoding of a character segment, and
the lowering of that segment encodes to the pattern. -/
theorem utf8_occurrence_aligned
    (quoteChars : List Char) (lowC : Char → Char) (ctxC : List Char)
    (hsz : ∀ c ∈ quoteChars, (utf8Bytes (lowC c)).length = (utf8Bytes c).length)
    (hctxC : ctxC ≠ []) {s : Nat}
    (hoccs : ((utf8Str (quoteChars.map lowC)).drop s).take (utf8Str ctxC).length
      = utf8Str ctxC) :
    ∃ k m,
      s = (utf8Str (quoteChars.take k)).length
      ∧ ((utf8Str quoteChars).drop s).take (utf8Str ctxC).length
          = utf8Str ((quoteChars.drop k).take m)
      ∧ utf8Str (((quoteChars.drop k).take m).map lowC) = utf8Str ctxC
      ∧ s + (utf8Str ctxC).length
          = (utf8Str (quoteChars.take k ++ (quoteChars.drop k).take m)).length := by
  have hCBpos : 0 < (utf8Str ctxC).length :=
    List.length_pos.mpr (utf8Str_ne_nil hctxC)
  have hlenOcc := congrArg List.length hoccs
  rw [List.length_take, List.length_drop] at hlenOcc
  have hsle : s ≤ (utf8Str (quoteChars.map lowC)).length := by omega
  have hQBsplit : utf8Str (quoteChars.map lowC)
      = (utf8Str (quoteChars.map lowC)).take s
        ++ (utf8Str ctxC
          ++ (utf8Str (quoteChars.map lowC)).drop (s + (utf8Str ctxC).length)) := by
    conv_lhs => rw [← List.take_append_drop s (utf8Str (quoteChars.map lowC))]
    congr 1
    conv_lhs => rw [← List.take_append_drop (utf8Str ctxC).length
      ((utf8Str (quoteChars.map lowC)).drop s)]
    rw [hoccs, List.drop_drop]
  obtain ⟨l1, l2, hl12, hl1, hl2⟩ := utf8Str_split_aligned (quoteChars.map lowC) _ _
    hQBsplit (fun b hb => by
      rw [head?_append_left (utf8Str_ne_nil hctxC)] at hb
      exact utf8Str_head_not_cont hctxC hb)
  obtain ⟨p, rest, hp12, hpctx, hprest⟩ := utf8Str_decode ctxC l2 _ hl2
  have hl1take : l1 = (quoteChars.map lowC).take l1.length := by
    rw [hl12, List.take_left]
  have hl2drop : l2 = (quoteChars.map lowC).drop l1.length := by
    rw [hl12, List.drop_left]
  have hptake : p = l2.take p.length := by
    rw [hp12, List.take_left]
  have hs_eq : (utf8Str l1).length = s := by
    rw [hl1, List.length_take]
    omega
  have hktake : l1 = (quoteChars.take l1.length).map lowC := by
    conv_lhs => rw [hl1take]
    rw [List.map_take]
  have hsub1 : ∀ c ∈ quoteChars.take l1.length,
      (utf8Bytes (lowC c)).length = (utf8Bytes c).length :=
    fun c hc => hsz c (List.take_subset _ _ hc)
  have goal1 : s = (utf8Str (quoteChars.take l1.length)).length := by
    calc s = (utf8Str l1).length := hs_eq.symm
      _ = (utf8Str ((quoteChars.take l1.length).map lowC)).length := by rw [← hktake]
      _ = (utf8Str (quoteChars.take l1.length)).length := utf8Str_length_congr hsub1
  have hl2map : l2 = (quoteChars.drop l1.length).map lowC := by
    rw [hl2drop, List.map_drop]
  have hpmap : p = ((quoteChars.drop l1.length).take p.length).map lowC := by
    conv_lhs => rw [hptake, hl2map]
    rw [List.map_take]
  have hsub2 : ∀ c ∈ (quoteChars.drop l1.length).take p.length,
      (utf8Bytes (lowC c)).length = (utf8Bytes c).length :=
    fun c hc => hsz c (List.drop_subset _ _ (List.take_subset _ _ hc))
  have hseg_len : (utf8Str ((quoteChars.drop l1.length).take p.length)).length
      = (utf8Str ctxC).length := by
    calc (utf8Str ((quoteChars.drop l1.length).take p.length)).length
        = (utf8Str (((quoteChars.drop l1.length).take p.length).map lowC)).length :=
          (utf8Str_length_congr hsub2).symm
      _ = (utf8Str p).length := by rw [← hpmap]
      _ = (utf8Str ctxC).length := by rw [hpctx]
  have hquote_split : quoteChars
      = quoteChars.take l1.length
        ++ ((quoteChars.drop l1.length).take p.length
          ++ (quoteChars.drop l1.length).drop p.length) := by
    rw [List.take_append_drop, List.take_append_drop]
  have horig : utf8Str quoteChars
      = utf8Str (quoteChars.take l1.length)
        ++ (utf8Str ((quoteChars.drop l1.length).take p.length)
          ++ utf8Str ((quoteChars.drop l1.length).drop p.length)) := by
    conv_lhs => rw [hquote_split]
    rw [utf8Str_append, utf8Str_append]
  have goal2 : ((utf8Str quoteChars).drop s).take (utf8Str ctxC).length
      = utf8Str ((quoteChars.drop l1.length).take p.length) := by
    rw [horig, goal1, List.drop_left, ← hseg_len, List.take_left]
  have goal3 : utf8Str (((quoteChars.drop l1.length).take p.length).map lowC)
      = utf8Str ctxC := by
    rw [← hpmap, hpctx]
  have goal4 : s + (utf8Str ctxC).length
      = (utf8Str (quoteChars.take l1.length
          ++ (quoteChars.drop l1.length).take p.length)).length := by
    rw [utf8Str_append, List.length_append, ← goal1, hseg_len]
  exact ⟨l1.length, p.length, goal1, goal2, goal3, goal4⟩

/-- Reduction of format_no_wrap_bytes when the search and all three
slices succeed. -/
theorem format_no_wrap_bytes_eq {lower : Char → List Char} {q : Quote} {s : Nat}
    (hfind : byteFind (utf8Str ((q.context.map lower).flatten))
      (utf8Str ((q.quote.map lower).flatten)) = some s)
    {r1 r2 r3 : List Nat}
    (h1 : byteSlice (utf8Str q.quote) 0 s = some r1)
    (h2 : byteSlice (utf8Str q.quote) s
      (s + (utf8Str ((q.context.map lower).flatten)).length) = some r2)
    (h3 : byteSlice (utf8Str q.quote)
      (s + (utf8Str ((q.context.map lower).flatten)).length)
      (utf8Str q.quote).length = some r3) :
    format_no_wrap_bytes lower Unit q = RunOutcome.ok (r1, r2, r3) := by
  unfold format_no_wrap_bytes
  rw [hfind]
  simp only [h1, h2, h3]

/-- C7 (amended): whenever every character of the quotation lowercases
to a single character of the same UTF-8 byte length, as all ASCII text
and most non-ASCII case pairs do, and the lowered phrase occurs in the
lowered quotation, format_no_wrap slices the original quotation without
panicking at the byte range of the first case-insensitive occurrence:
the range starts at the encoded length of the first k characters, its
content is the encoding of a segment of m original characters whose
lowercasing encodes exactly to the lowered phrase, and no earlier byte
offset carries an occurrence. When lowercasing changes a byte length the
computed range misaligns or the slicing panics, as the counterexample
shows. -/
theorem format_no_wrap_bytes_first_occurrence
    (lower : Char → List Char) (lowC : Char → Char) (q : Quote)
    (hone : ∀ c ∈ q.quote, lower c = [lowC c]
      ∧ (utf8Bytes (lowC c)).length = (utf8Bytes c).length)
    (hctx : (q.context.map lower).flatten ≠ [])
    (hocc : ∃ i,
      ((utf8Str ((q.quote.map lower).flatten)).drop i).take
          (utf8Str ((q.context.map lower).flatten)).length
        = utf8Str ((q.context.map lower).flatten)) :
    ∃ s k m,
      format_no_wrap_bytes lower Unit q
        = RunOutcome.ok ((utf8Str q.quote).take s,
            ((utf8Str q.quote).drop s).take
              (utf8Str ((q.context.map lower).flatten)).length,
            (utf8Str q.quote).drop
              (s + (utf8Str ((q.context.map lower).flatten)).length))
      ∧ s = (utf8Str (q.quote.take k)).length
      ∧ ((utf8Str q.quote).drop s).take
            (utf8Str ((q.context.map lower).flatten)).length
          = utf8Str ((q.quote.drop k).take m)
      ∧ utf8Str (((q.quote.drop k).take m).map lowC)
          = utf8Str ((q.context.map lower).flatten)
      ∧ ∀ j, j < s →
          ((utf8Str ((q.quote.map lower).flatten)).drop j).take
              (utf8Str ((q.context.map lower).flatten)).length
            ≠ utf8Str ((q.context.map lower).flatten) := by
  obtain ⟨i, hi⟩ := hocc
  obtain ⟨s, hfind⟩ := byteFind_isSome_of_occurs i hi
  obtain ⟨hoccs, hmin⟩ := byteFind_eq_some hfind
  have hmapflat : (q.quote.map lower).flatten = q.quote.map lowC :=
    flatten_map_singleton (fun c hc => (hone c hc).1)
  have hsz : ∀ c ∈ q.quote, (utf8Bytes (lowC c)).length = (utf8Bytes c).length :=
    fun c hc => (hone c hc).2
  have hoccs2 : ((utf8Str (q.quote.map lowC)).drop s).take
        (utf8Str ((q.context.map lower).flatten)).length
      = utf8Str ((q.context.map lower).flatten) := by
    rw [← hmapflat]
    exact hoccs
  obtain ⟨k, m, hk, hmid, hlowseg, hstop⟩ :=
    utf8_occurrence_aligned q.quote lowC ((q.context.map lower).flatten) hsz hctx hoccs2
  have hb0 : isCharBoundary (utf8Str q.quote) 0 = true := by
    have hbb := isCharBoundary_utf8Str [] q.quote
    simpa [utf8Str_nil] using hbb
  have hbs : isCharBoundary (utf8Str q.quote) s = true := by
    have hbb := isCharBoundary_utf8Str (q.quote.take k) (q.quote.drop k)
    rw [List.take_append_drop] at hbb
    rw [hk]
    exact hbb
  have hbstop : isCharBoundary (utf8Str q.quote)
      (s + (utf8Str ((q.context.map lower).flatten)).length) = true := by
    have hbb := isCharBoundary_utf8Str (q.quote.take k ++ (q.quote.drop k).take m)
      ((q.quote.drop k).drop m)
    rw [List.append_assoc, List.take_append_drop, List.take_append_drop] at hbb
    rw [hstop]
    exact hbb
  have hbend : isCharBoundary (utf8Str q.quote) (utf8Str q.quote).length = true := by
    have hbb := isCharBoundary_utf8Str q.quote []
    simpa using hbb
  have hstople : s + (utf8Str ((q.context.map lower).flatten)).length
      ≤ (utf8Str q.quote).length := by
    rw [hstop]
    calc (utf8Str (q.quote.take k ++ (q.quote.drop k).take m)).length
        ≤ (utf8Str (q.quote.take k ++ (q.quote.drop k).take m)).length
          + (utf8Str ((q.quote.drop k).drop m)).length := Nat.le_add_right _ _
      _ = (utf8Str q.quote).length := by
          rw [← List.length_append, ← utf8Str_append, List.append_assoc,
            List.take_append_drop, List.take_append_drop]
  have hc3 : ((utf8Str q.quote).drop
        (s + (utf8Str ((q.context.map lower).flatten)).length)).take
        ((utf8Str q.quote).length
          - (s + (utf8Str ((q.context.map lower).flatten)).length))
      = (utf8Str q.quote).drop
        (s + (utf8Str ((q.context.map lower).flatten)).length) := by
    rw [← List.length_drop]
    exact List.take_length _
  have hrun := format_no_wrap_bytes_eq hfind
    (byteSlice_eq (Nat.zero_le s) hb0 hbs)
    (byteSlice_eq (Nat.le_add_right s _) hbs hbstop)
    (byteSlice_eq hstople hbstop hbend)
  rw [List.drop_zero, Nat.sub_zero, Nat.add_sub_cancel_left, hc3] at hrun
  exact ⟨s, k, m, hrun, hk, hmid, hlowseg, fun j hj => hmin j hj⟩

/-- Witness for the amended C7 statement at the ASCII example of the
spec, where demoLower agrees with String::to_lowercase exactly. -/
theorem format_no_wrap_bytes_first_occurrence_witness :
    (∀ c ∈ coldQuote.quote, demoLower c = [asciiLower c]
      ∧ (utf8Bytes (asciiLower c)).length = (utf8Bytes c).length)
      ∧ (coldQuote.context.map demoLower).flatten ≠ []
      ∧ (∃ i,
          ((utf8Str ((coldQuote.quote.map demoLower).flatten)).drop i).take
              (utf8Str ((coldQuote.context.map demoLower).flatten)).length
            = utf8Str ((coldQuote.context.map demoLower).flatten))
      ∧ (∃ s k m,
          format_no_wrap_bytes demoLower Unit coldQuote
            = RunOutcome.ok ((utf8Str coldQuote.quote).take s,
                ((utf8Str coldQuote.quote).drop s).take
                  (utf8Str ((coldQuote.context.map demoLower).flatten)).length,
                (utf8Str coldQuote.quote).drop
                  (s + (utf8Str ((coldQuote.context.map demoLower).flatten)).length))
          ∧ s = (utf8Str (coldQuote.quote.take k)).length
          ∧ ((utf8Str coldQuote.quote).drop s).take
                (utf8Str ((coldQuote.context.map demoLower).flatten)).length
              = utf8Str ((coldQuote.quote.drop k).take m)
          ∧ utf8Str (((coldQuote.quote.drop k).take m).map asciiLower)
              = utf8Str ((coldQuote.context.map demoLower).flatten)
          ∧ ∀ j, j < s →
              ((utf8Str ((coldQuote.quote.map demoLower).flatten)).drop j).take
                  (utf8Str ((coldQuote.context.map demoLower).flatten)).length
                ≠ utf8Str ((coldQuote.context.map demoLower).flatten)) :=
  ⟨by decide, by decide, ⟨9, by decide⟩,
    format_no_wrap_bytes_first_occurrence demoLower asciiLower coldQuote
      (by decide) (by decide) ⟨9, by decide⟩⟩

end Literal
